import Mathlib

/-!
Verification of the BayesianNetworks notebook.

The notebook's only original code is `make_dataset`:

```python
def make_dataset():
    X = numpy.random.randint(2, size=(2000, 7))
    X[:,2] = 3*X[:,1]
    X[:,3] = 2*X[:,0]
    X[:,5] = X[:,4] + 2*X[:,3]
    X[:,6] = 3*X[:,1] + 4*X[:,4] + 8*X[:,0]
    return X
```

followed by `model = BayesianNetwork.from_samples(X)` (external library).

We embed `make_dataset` as a function of the random draw produced by
`numpy.random.randint(2, size=(2000, 7))`: the draw is a list of rows, each a
list of naturals.  Each numpy column assignment writes, in every row, a value
computed from that same row's current entries, so applying the four column
assignments row by row (in program order within each row) is exactly the
same function on the matrix as applying them column by column.
-/

/-- The four column assignments of `make_dataset`, restricted to one row and
applied in program order: `X[:,2] = 3*X[:,1]`, `X[:,3] = 2*X[:,0]`,
`X[:,5] = X[:,4] + 2*X[:,3]`, `X[:,6] = 3*X[:,1] + 4*X[:,4] + 8*X[:,0]`. -/
def assignCols (row : List ℕ) : List ℕ :=
  let r2 := row.set 2 (3 * row.getD 1 0)
  let r3 := r2.set 3 (2 * r2.getD 0 0)
  let r5 := r3.set 5 (r3.getD 4 0 + 2 * r3.getD 3 0)
  r5.set 6 (3 * r5.getD 1 0 + 4 * r5.getD 4 0 + 8 * r5.getD 0 0)

/-- The notebook's `make_dataset`, as a function of the random draw `R`
returned by `numpy.random.randint(2, size=(2000, 7))`. -/
def make_dataset (R : List (List ℕ)) : List (List ℕ) :=
  R.map assignCols

/-- Shape and range of the output of `numpy.random.randint(2, size=(2000, 7))`:
2000 rows, 7 columns, every entry in `{0, 1}`. -/
def Randint2 (R : List (List ℕ)) : Prop :=
  R.length = 2000 ∧ ∀ row ∈ R, row.length = 7 ∧ ∀ v ∈ row, v < 2

/-- A possible random draw: all entries 0. -/
def Rzeros : List (List ℕ) := List.replicate 2000 (List.replicate 7 0)

/-- Another possible random draw: all entries 1. -/
def Rones : List (List ℕ) := List.replicate 2000 (List.replicate 7 1)

/-- Lexicographic comparison of candidate parent lists, used by the greedy
search's tie-breaking rule (lowest variable index first). -/
def lexLt : List ℕ → List ℕ → Bool
  | [], [] => false
  | [], _ :: _ => true
  | _ :: _, [] => false
  | a :: s, b :: t =>
    if a < b then true else if a = b then lexLt s t else false

/-- Modelled from the spec: the structure search performed by
`BayesianNetwork.from_samples` lives in the external pomegranate library, so
its code is not under src/.  Spec §4.3 describes the greedy policy: fix a
topological ordering of the variables and, for each variable, consider
candidate parent sets drawn only from variables earlier in the ordering,
selecting the one that maximises the scoring function; ties are broken by
preferring the smaller parent set, then the lowest variable index.
`betterThan sc s t` decides whether candidate `s` beats the current best `t`
under score `sc`. -/
def betterThan (sc : List ℕ → ℚ) (s t : List ℕ) : Bool :=
  if sc t < sc s then true
  else if sc s = sc t then
    if s.length < t.length then true
    else if s.length = t.length then lexLt s t
    else false
  else false

/-- Modelled from the spec: among all candidate parent sets (the subsets of
the allowed candidate variables), pick the best one according to
`betterThan`, starting from the empty parent set. -/
def chooseBest (sc : List ℕ → ℚ) (cands : List ℕ) : List ℕ :=
  cands.sublists.foldl (fun best s => if betterThan sc s best then s else best) []

/-- Variables strictly earlier than `v` in the ordering `ord`. -/
def earlierVars (ord : List ℕ) (v : ℕ) : List ℕ :=
  ord.takeWhile (fun u => u != v)

/-- Modelled from the spec: the parent set the greedy structure search learns
for variable `v` given a scoring function and the fixed topological ordering
`ord`: the best-scoring subset of the variables earlier than `v` in `ord`. -/
def learnedParents (score : ℕ → List ℕ → ℚ) (ord : List ℕ) (v : ℕ) : List ℕ :=
  chooseBest (score v) (earlierVars ord v)

/-- Position of the first occurrence of `v` in `ord` (the length of `ord`
when `v` does not occur). -/
def rankIn (ord : List ℕ) (v : ℕ) : ℕ := (earlierVars ord v).length

/-- Modelled from the spec: the number of observations in the table `X` whose
columns match the parent assignment `pa` (a list of column/value pairs) and
whose column `v` holds the value `x`.  Parameter estimation happens inside
`BayesianNetwork.from_samples`, whose code is not under src/. -/
def countRows (X : List (List ℕ)) (pa : List (ℕ × ℕ)) (v x : ℕ) : ℕ :=
  (X.filter (fun row => pa.all (fun p => row.getD p.1 0 == p.2) &&
    (row.getD v 0 == x))).length

/-- Modelled from the spec: the CPT entry for value `x` of variable `v` given
the parent assignment `pa`, estimated from observed counts with an additive
pseudo-count of 1 for every domain value (the smoothing policy of spec §4.2
for zero-count cells). -/
def cptEntry (X : List (List ℕ)) (pa : List (ℕ × ℕ)) (v : ℕ)
    (domain : List ℕ) (x : ℕ) : ℚ :=
  ((countRows X pa v x : ℚ) + 1) /
    (domain.map (fun y => (countRows X pa v y : ℚ) + 1)).sum

/- Helper lemmas about the embedding. -/

theorem assignCols_explicit (a b c d e f g : ℕ) :
    assignCols [a, b, c, d, e, f, g] =
      [a, b, 3 * b, 2 * a, e, e + 2 * (2 * a), 3 * b + 4 * e + 8 * a] := rfl

theorem exists_seven {l : List ℕ} (h : l.length = 7) :
    ∃ a b c d e f g, l = [a, b, c, d, e, f, g] := by
  match l with
  | [a, b, c, d, e, f, g] => exact ⟨a, b, c, d, e, f, g, rfl⟩
  | [] | [_] | [_, _] | [_, _, _] | [_, _, _, _] | [_, _, _, _, _]
  | [_, _, _, _, _, _] => simp at h
  | _ :: _ :: _ :: _ :: _ :: _ :: _ :: _ :: _ => simp at h

theorem make_dataset_replicate (n : ℕ) (r : List ℕ) :
    make_dataset (List.replicate n r) = List.replicate n (assignCols r) := by
  simp [make_dataset]

theorem randint2_zeros : Randint2 Rzeros := by
  refine ⟨by rw [Rzeros, List.length_replicate], ?_⟩
  intro row hrow
  rw [Rzeros, List.mem_replicate] at hrow
  rw [hrow.2]
  refine ⟨by simp, ?_⟩
  intro v hv
  rw [List.mem_replicate] at hv
  omega

theorem randint2_ones : Randint2 Rones := by
  refine ⟨by rw [Rones, List.length_replicate], ?_⟩
  intro row hrow
  rw [Rones, List.mem_replicate] at hrow
  rw [hrow.2]
  refine ⟨by simp, ?_⟩
  intro v hv
  rw [List.mem_replicate] at hv
  omega

/-- C1: for every array returned by `make_dataset` and every row, the value in
column 5 equals the value in column 4 plus two times the value in column 3. -/
theorem c1_col5_eq_col4_add_two_col3 (R : List (List ℕ)) (h : Randint2 R)
    (row : List ℕ) (hrow : row ∈ make_dataset R) :
    row.getD 5 0 = row.getD 4 0 + 2 * row.getD 3 0 := by
  rw [make_dataset, List.mem_map] at hrow
  obtain ⟨r, hr, rfl⟩ := hrow
  obtain ⟨a, b, c, d, e, f, g, rfl⟩ := exists_seven (h.2 r hr).1
  rw [assignCols_explicit]
  simp

theorem c1_witness :
    Randint2 Rzeros ∧ [0, 0, 0, 0, 0, 0, 0] ∈ make_dataset Rzeros ∧
      ([0, 0, 0, 0, 0, 0, 0] : List ℕ).getD 5 0 =
        ([0, 0, 0, 0, 0, 0, 0] : List ℕ).getD 4 0 +
          2 * ([0, 0, 0, 0, 0, 0, 0] : List ℕ).getD 3 0 := by
  have hz : Randint2 Rzeros := randint2_zeros
  have hmem : [0, 0, 0, 0, 0, 0, 0] ∈ make_dataset Rzeros := by
    rw [Rzeros, make_dataset_replicate, List.mem_replicate]
    exact ⟨by simp, rfl⟩
  exact ⟨hz, hmem, c1_col5_eq_col4_add_two_col3 Rzeros hz _ hmem⟩

/-- C2: every invocation of `make_dataset` returns a table with exactly 2000
rows and exactly 7 columns. -/
theorem c2_shape (R : List (List ℕ)) (h : Randint2 R) :
    (make_dataset R).length = 2000 ∧
      ∀ row ∈ make_dataset R, row.length = 7 := by
  refine ⟨by rw [make_dataset, List.length_map]; exact h.1, ?_⟩
  intro row hrow
  rw [make_dataset, List.mem_map] at hrow
  obtain ⟨r, hr, rfl⟩ := hrow
  obtain ⟨a, b, c, d, e, f, g, rfl⟩ := exists_seven (h.2 r hr).1
  rw [assignCols_explicit]
  rfl

theorem c2_witness :
    Randint2 Rzeros ∧ ((make_dataset Rzeros).length = 2000 ∧
      ∀ row ∈ make_dataset Rzeros, row.length = 7) :=
  ⟨randint2_zeros, c2_shape Rzeros randint2_zeros⟩

/-- C3: in every dataset produced by `make_dataset`, column 2 equals column 1
multiplied by the fixed constant 3, and the value in column 2 uniquely
determines the value in column 1. -/
theorem c3_col2_determines_col1 (R : List (List ℕ)) (h : Randint2 R) :
    (∀ row ∈ make_dataset R, row.getD 2 0 = 3 * row.getD 1 0) ∧
      ∀ r1 ∈ make_dataset R, ∀ r2 ∈ make_dataset R,
        r1.getD 2 0 = r2.getD 2 0 → r1.getD 1 0 = r2.getD 1 0 := by
  have key : ∀ row ∈ make_dataset R, row.getD 2 0 = 3 * row.getD 1 0 := by
    intro row hrow
    rw [make_dataset, List.mem_map] at hrow
    obtain ⟨r, hr, rfl⟩ := hrow
    obtain ⟨a, b, c, d, e, f, g, rfl⟩ := exists_seven (h.2 r hr).1
    rw [assignCols_explicit]
    rfl
  refine ⟨key, ?_⟩
  intro r1 h1 r2 h2 heq
  have k1 := key r1 h1
  have k2 := key r2 h2
  omega

theorem c3_witness :
    Randint2 Rzeros ∧
      ((∀ row ∈ make_dataset Rzeros, row.getD 2 0 = 3 * row.getD 1 0) ∧
        ∀ r1 ∈ make_dataset Rzeros, ∀ r2 ∈ make_dataset Rzeros,
          r1.getD 2 0 = r2.getD 2 0 → r1.getD 1 0 = r2.getD 1 0) :=
  ⟨randint2_zeros, c3_col2_determines_col1 Rzeros randint2_zeros⟩

/-- C5: every row of the observation table produced by `make_dataset` has 7
columns and every value lies in its column's finite domain: columns 0, 1, 4
take values in {0,1}, column 2 in {0,3}, column 3 in {0,2}, column 5 in
{0,1,4,5} and column 6 in {0,3,4,7,8,11,12,15}. -/
theorem c5_observation_table_invariant (R : List (List ℕ)) (h : Randint2 R) :
    ∀ row ∈ make_dataset R, row.length = 7 ∧
      row.getD 0 0 ∈ ([0, 1] : List ℕ) ∧
      row.getD 1 0 ∈ ([0, 1] : List ℕ) ∧
      row.getD 4 0 ∈ ([0, 1] : List ℕ) ∧
      row.getD 2 0 ∈ ([0, 3] : List ℕ) ∧
      row.getD 3 0 ∈ ([0, 2] : List ℕ) ∧
      row.getD 5 0 ∈ ([0, 1, 4, 5] : List ℕ) ∧
      row.getD 6 0 ∈ ([0, 3, 4, 7, 8, 11, 12, 15] : List ℕ) := by
  intro row hrow
  rw [make_dataset, List.mem_map] at hrow
  obtain ⟨r, hr, rfl⟩ := hrow
  obtain ⟨hlen, hdom⟩ := h.2 r hr
  obtain ⟨a, b, c, d, e, f, g, rfl⟩ := exists_seven hlen
  have ha : a < 2 := hdom a (by simp)
  have hb : b < 2 := hdom b (by simp)
  have he : e < 2 := hdom e (by simp)
  rw [assignCols_explicit]
  have ha' : a = 0 ∨ a = 1 := by omega
  have hb' : b = 0 ∨ b = 1 := by omega
  have he' : e = 0 ∨ e = 1 := by omega
  rcases ha' with rfl | rfl <;> rcases hb' with rfl | rfl <;>
    rcases he' with rfl | rfl <;> simp

theorem c5_witness :
    Randint2 Rzeros ∧
      ∀ row ∈ make_dataset Rzeros, row.length = 7 ∧
        row.getD 0 0 ∈ ([0, 1] : List ℕ) ∧
        row.getD 1 0 ∈ ([0, 1] : List ℕ) ∧
        row.getD 4 0 ∈ ([0, 1] : List ℕ) ∧
        row.getD 2 0 ∈ ([0, 3] : List ℕ) ∧
        row.getD 3 0 ∈ ([0, 2] : List ℕ) ∧
        row.getD 5 0 ∈ ([0, 1, 4, 5] : List ℕ) ∧
        row.getD 6 0 ∈ ([0, 3, 4, 7, 8, 11, 12, 15] : List ℕ) :=
  ⟨randint2_zeros, c5_observation_table_invariant Rzeros randint2_zeros⟩

/-- C8: for every array returned by `make_dataset` and every row, the value
in column 5 equals the value in column 4 plus four times the value in
column 0, and hence lies in {0, 1, 4, 5}. -/
theorem c8_col5_from_col0 (R : List (List ℕ)) (h : Randint2 R)
    (row : List ℕ) (hrow : row ∈ make_dataset R) :
    row.getD 5 0 = row.getD 4 0 + 4 * row.getD 0 0 ∧
      row.getD 5 0 ∈ ([0, 1, 4, 5] : List ℕ) := by
  rw [make_dataset, List.mem_map] at hrow
  obtain ⟨r, hr, rfl⟩ := hrow
  obtain ⟨hlen, hdom⟩ := h.2 r hr
  obtain ⟨a, b, c, d, e, f, g, rfl⟩ := exists_seven hlen
  have ha : a < 2 := hdom a (by simp)
  have he : e < 2 := hdom e (by simp)
  rw [assignCols_explicit]
  have ha' : a = 0 ∨ a = 1 := by omega
  have he' : e = 0 ∨ e = 1 := by omega
  rcases ha' with rfl | rfl <;> rcases he' with rfl | rfl <;> simp

theorem c8_witness :
    Randint2 Rzeros ∧ [0, 0, 0, 0, 0, 0, 0] ∈ make_dataset Rzeros ∧
      (([0, 0, 0, 0, 0, 0, 0] : List ℕ).getD 5 0 =
          ([0, 0, 0, 0, 0, 0, 0] : List ℕ).getD 4 0 +
            4 * ([0, 0, 0, 0, 0, 0, 0] : List ℕ).getD 0 0 ∧
        ([0, 0, 0, 0, 0, 0, 0] : List ℕ).getD 5 0 ∈ ([0, 1, 4, 5] : List ℕ)) := by
  have hz : Randint2 Rzeros := randint2_zeros
  have hmem : [0, 0, 0, 0, 0, 0, 0] ∈ make_dataset Rzeros := by
    rw [Rzeros, make_dataset_replicate, List.mem_replicate]
    exact ⟨by simp, rfl⟩
  exact ⟨hz, hmem, c8_col5_from_col0 Rzeros hz _ hmem⟩

/-- C9: in every array returned by `make_dataset`, the value in column 6
uniquely determines the values of columns 0, 1 and 4: two rows with equal
column-6 values agree on columns 0, 1 and 4 (the map (a,b,c) ↦ 3b + 4c + 8a
is injective on {0,1}³). -/
theorem c9_col6_injective (R : List (List ℕ)) (h : Randint2 R) :
    ∀ r1 ∈ make_dataset R, ∀ r2 ∈ make_dataset R,
      r1.getD 6 0 = r2.getD 6 0 →
        r1.getD 0 0 = r2.getD 0 0 ∧ r1.getD 1 0 = r2.getD 1 0 ∧
          r1.getD 4 0 = r2.getD 4 0 := by
  intro r1 h1 r2 h2 heq
  rw [make_dataset, List.mem_map] at h1 h2
  obtain ⟨s1, hs1, rfl⟩ := h1
  obtain ⟨s2, hs2, rfl⟩ := h2
  obtain ⟨hlen1, hdom1⟩ := h.2 s1 hs1
  obtain ⟨hlen2, hdom2⟩ := h.2 s2 hs2
  obtain ⟨a1, b1, c1, d1, e1, f1, g1, rfl⟩ := exists_seven hlen1
  obtain ⟨a2, b2, c2, d2, e2, f2, g2, rfl⟩ := exists_seven hlen2
  have ha1 : a1 < 2 := hdom1 a1 (by simp)
  have hb1 : b1 < 2 := hdom1 b1 (by simp)
  have he1 : e1 < 2 := hdom1 e1 (by simp)
  have ha2 : a2 < 2 := hdom2 a2 (by simp)
  have hb2 : b2 < 2 := hdom2 b2 (by simp)
  have he2 : e2 < 2 := hdom2 e2 (by simp)
  simp only [assignCols_explicit] at heq ⊢
  simp at heq ⊢
  omega

theorem c9_witness :
    Randint2 Rzeros ∧
      ∀ r1 ∈ make_dataset Rzeros, ∀ r2 ∈ make_dataset Rzeros,
        r1.getD 6 0 = r2.getD 6 0 →
          r1.getD 0 0 = r2.getD 0 0 ∧ r1.getD 1 0 = r2.getD 1 0 ∧
            r1.getD 4 0 = r2.getD 4 0 :=
  ⟨randint2_zeros, c9_col6_injective Rzeros randint2_zeros⟩

/-- C10: the derived-column assignments in `make_dataset` leave columns 0, 1
and 4 unchanged: row by row, each entry of columns 0, 1 and 4 of the output
equals the corresponding entry of the initial random draw. -/
theorem c10_roots_unchanged (R : List (List ℕ)) (h : Randint2 R) :
    List.Forall₂
      (fun r s => s.getD 0 0 = r.getD 0 0 ∧ s.getD 1 0 = r.getD 1 0 ∧
        s.getD 4 0 = r.getD 4 0)
      R (make_dataset R) := by
  rw [make_dataset, List.forall₂_map_right_iff]
  rw [List.forall₂_same]
  intro r hr
  obtain ⟨a, b, c, d, e, f, g, rfl⟩ := exists_seven (h.2 r hr).1
  rw [assignCols_explicit]
  exact ⟨rfl, rfl, rfl⟩

theorem c10_witness :
    Randint2 Rzeros ∧
      List.Forall₂
        (fun r s => s.getD 0 0 = r.getD 0 0 ∧ s.getD 1 0 = r.getD 1 0 ∧
          s.getD 4 0 = r.getD 4 0)
        Rzeros (make_dataset Rzeros) :=
  ⟨randint2_zeros, c10_roots_unchanged Rzeros randint2_zeros⟩

theorem map_assignCols_congr {L1 L2 : List (List ℕ)}
    (hf : List.Forall₂
      (fun r s => r.getD 0 0 = s.getD 0 0 ∧ r.getD 1 0 = s.getD 1 0 ∧
        r.getD 4 0 = s.getD 4 0) L1 L2) :
    (∀ r ∈ L1, r.length = 7) → (∀ r ∈ L2, r.length = 7) →
      L1.map assignCols = L2.map assignCols := by
  induction hf with
  | nil => intro _ _; rfl
  | @cons r s l1 l2 hrs hrest ih =>
    intro hl1 hl2
    have hr7 : r.length = 7 := hl1 r (by simp)
    have hs7 : s.length = 7 := hl2 s (by simp)
    obtain ⟨a1, b1, c1, d1, e1, f1, g1, rfl⟩ := exists_seven hr7
    obtain ⟨a2, b2, c2, d2, e2, f2, g2, rfl⟩ := exists_seven hs7
    obtain ⟨ha, hb, he⟩ := hrs
    simp only [List.getD] at ha hb he
    simp at ha hb he
    subst ha hb he
    have htail := ih (fun x hx => hl1 x (by simp [hx]))
      (fun x hx => hl2 x (by simp [hx]))
    simp only [List.map_cons, htail, assignCols_explicit]

/-- C4 (as amended): the notebook fixes no random seed, so the dataset depends
on the ambient random draw and repeated runs may differ (see the
counterexample); what does hold is that `make_dataset` is deterministic as a
function of the draw: whenever two draws agree on columns 0, 1 and 4 (the only
drawn values that survive the derived-column assignments), the resulting
datasets are identical. -/
theorem c4_deterministic_in_draw (R1 R2 : List (List ℕ))
    (h1 : Randint2 R1) (h2 : Randint2 R2)
    (hagree : List.Forall₂
      (fun r s => r.getD 0 0 = s.getD 0 0 ∧ r.getD 1 0 = s.getD 1 0 ∧
        r.getD 4 0 = s.getD 4 0) R1 R2) :
    make_dataset R1 = make_dataset R2 := by
  rw [make_dataset, make_dataset]
  exact map_assignCols_congr hagree (fun r hr => (h1.2 r hr).1)
    (fun r hr => (h2.2 r hr).1)

theorem c4_witness :
    Randint2 Rzeros ∧ Randint2 Rzeros ∧
      List.Forall₂
        (fun r s => r.getD 0 0 = s.getD 0 0 ∧ r.getD 1 0 = s.getD 1 0 ∧
          r.getD 4 0 = s.getD 4 0) Rzeros Rzeros ∧
      make_dataset Rzeros = make_dataset Rzeros := by
  have hf : List.Forall₂
      (fun r s => r.getD 0 0 = s.getD 0 0 ∧ r.getD 1 0 = s.getD 1 0 ∧
        r.getD 4 0 = s.getD 4 0) Rzeros Rzeros :=
    List.forall₂_same.mpr (fun x _ => ⟨rfl, rfl, rfl⟩)
  exact ⟨randint2_zeros, randint2_zeros, hf,
    c4_deterministic_in_draw Rzeros Rzeros randint2_zeros randint2_zeros hf⟩

/-- C4 counterexample: the pipeline as written fixes no random seed, and the
dataset is not independent of the random draw: the all-zeros and all-ones
draws are both possible outputs of `numpy.random.randint(2, size=(2000, 7))`
and give different datasets, so two runs need not produce identical data. -/
theorem c4_counterexample :
    Randint2 Rzeros ∧ Randint2 Rones ∧
      make_dataset Rzeros ≠ make_dataset Rones := by
  refine ⟨randint2_zeros, randint2_ones, ?_⟩
  intro h
  rw [Rzeros, Rones, make_dataset_replicate, make_dataset_replicate] at h
  have h2 := List.replicate_right_injective (by norm_num) h
  exact absurd h2 (by decide)

theorem foldl_choice_mem (f : List ℕ → List ℕ → Bool) :
    ∀ (l : List (List ℕ)) (init : List ℕ),
      l.foldl (fun best s => if f s best then s else best) init = init ∨
        l.foldl (fun best s => if f s best then s else best) init ∈ l := by
  intro l
  induction l with
  | nil => intro init; exact Or.inl rfl
  | cons a t ih =>
    intro init
    rw [List.foldl_cons]
    rcases ih (if f a init then a else init) with h | h
    · rw [h]
      by_cases hfa : f a init
      · simp [hfa]
      · simp [hfa]
    · exact Or.inr (List.mem_cons_of_mem a h)

theorem chooseBest_mem_of_mem {sc : List ℕ → ℚ} {cands : List ℕ} {u : ℕ}
    (hu : u ∈ chooseBest sc cands) : u ∈ cands := by
  rw [chooseBest] at hu
  rcases foldl_choice_mem (betterThan sc) cands.sublists [] with h | h
  · rw [h] at hu
    exact absurd hu (List.not_mem_nil u)
  · have hsub : (cands.sublists.foldl
        (fun best s => if betterThan sc s best then s else best) []).Sublist
          cands := List.mem_sublists.mp h
    exact hsub.subset hu

theorem rankIn_cons_self (a : ℕ) (t : List ℕ) : rankIn (a :: t) a = 0 := by
  simp [rankIn, earlierVars, List.takeWhile_cons]

theorem rankIn_cons_ne {a v : ℕ} (t : List ℕ) (h : a ≠ v) :
    rankIn (a :: t) v = rankIn t v + 1 := by
  simp [rankIn, earlierVars, List.takeWhile_cons, h]

theorem rankIn_lt_of_mem_earlier {ord : List ℕ} {u v : ℕ}
    (hu : u ∈ earlierVars ord v) : rankIn ord u < rankIn ord v := by
  induction ord with
  | nil => exact absurd hu (List.not_mem_nil u)
  | cons a t ih =>
    by_cases hav : a = v
    · rw [earlierVars, List.takeWhile_cons] at hu
      simp [hav] at hu
    · rw [earlierVars, List.takeWhile_cons, if_pos (by simp [hav]),
        List.mem_cons] at hu
      rcases hu with rfl | hu
      · rw [rankIn_cons_self, rankIn_cons_ne t hav]
        omega
      · have h1 : rankIn t u < rankIn t v := ih hu
        rw [rankIn_cons_ne t hav]
        by_cases hau : a = u
        · subst hau
          rw [rankIn_cons_self]
          omega
        · rw [rankIn_cons_ne t hau]
          omega

theorem rankIn_lt_of_transGen {score : ℕ → List ℕ → ℚ} {ord : List ℕ}
    {u v : ℕ}
    (h : Relation.TransGen (fun x y => x ∈ learnedParents score ord y) u v) :
    rankIn ord u < rankIn ord v := by
  induction h with
  | single hxy =>
    exact rankIn_lt_of_mem_earlier (chooseBest_mem_of_mem hxy)
  | tail hxy hyz ih =>
    exact ih.trans (rankIn_lt_of_mem_earlier (chooseBest_mem_of_mem hyz))

/-- C6: for every scoring function, ordering and variable `v`, the parent set
the greedy structure search learns for `v` never contains `v` itself, and the
learned graph has no directed cycle: the edge relation "is a learned parent
of" admits no nonempty path from any variable back to itself (equivalently,
the fixed ordering is a topological sort of the output graph). -/
theorem c6_learned_graph_acyclic (score : ℕ → List ℕ → ℚ) (ord : List ℕ)
    (v : ℕ) :
    v ∉ learnedParents score ord v ∧
      ¬ Relation.TransGen (fun x y => x ∈ learnedParents score ord y) v v := by
  constructor
  · intro hv
    have hmem : v ∈ earlierVars ord v := chooseBest_mem_of_mem hv
    have := List.mem_takeWhile_imp hmem
    simp at this
  · intro hcyc
    exact lt_irrefl _ (rankIn_lt_of_transGen hcyc)

theorem list_sum_div (l : List ℚ) (S : ℚ) :
    (l.map (fun x => x / S)).sum = l.sum / S := by
  induction l with
  | nil => simp
  | cons a t ih => simp [ih, add_div]

/-- C7: for every observation table, parent assignment and nonempty domain,
the smoothed CPT entries for a variable are non-negative and sum to 1 over
the domain, in particular to within 1e-9. -/
theorem c7_cpt_normalized (X : List (List ℕ)) (pa : List (ℕ × ℕ)) (v : ℕ)
    (domain : List ℕ) (hne : domain ≠ []) :
    (∀ x ∈ domain, 0 ≤ cptEntry X pa v domain x) ∧
      |(domain.map (cptEntry X pa v domain)).sum - 1| ≤ 1 / 1000000000 := by
  set S : ℚ := (domain.map (fun y => (countRows X pa v y : ℚ) + 1)).sum with hS
  have hpos : 0 < S := by
    rw [hS]
    apply List.sum_pos
    · intro x hx
      rw [List.mem_map] at hx
      obtain ⟨y, _, rfl⟩ := hx
      positivity
    · simp [hne]
  constructor
  · intro x _
    rw [cptEntry, ← hS]
    positivity
  · have hsum : (domain.map (cptEntry X pa v domain)).sum = 1 := by
      have hmap : domain.map (cptEntry X pa v domain) =
          (domain.map (fun y => (countRows X pa v y : ℚ) + 1)).map
            (fun x => x / S) := by
        rw [List.map_map]
        apply List.map_congr_left
        intro y _
        rw [Function.comp_apply, cptEntry, ← hS]
      rw [hmap, list_sum_div, ← hS, div_self (ne_of_gt hpos)]
    rw [hsum]
    norm_num

theorem c7_witness :
    ([0, 1] : List ℕ) ≠ [] ∧
      ((∀ x ∈ ([0, 1] : List ℕ), 0 ≤ cptEntry [] [] 0 [0, 1] x) ∧
        |(([0, 1] : List ℕ).map (cptEntry [] [] 0 [0, 1])).sum - 1| ≤
          1 / 1000000000) :=
  ⟨by decide, c7_cpt_normalized [] [] 0 [0, 1] (by decide)⟩
